import Mathlib

/-!
# Verification of `RMSNorm` (vllm/model_executor/layers/layernorm.py)

Shallow embedding of the reference implementation `RMSNorm._forward` and the
constructor `RMSNorm.__init__`.

Modelling conventions:

* A tensor row is a `List ℝ`.  The promotion `x.to(torch.float32)` to the wide
  working precision is modelled as exact real arithmetic (the promotion from a
  narrower storage dtype is value-preserving), and the downcast
  `x.to(orig_dtype)` back to the storage precision is modelled by an abstract
  function `dcast : ℝ → ℝ` supplied as a parameter.  For inputs already stored
  in the wide precision, `dcast = id`.
* Elementwise binary tensor operations (`+`, `*`) follow the library's
  broadcasting rule on the last dimension: equal lengths act pointwise, a
  length-one operand is broadcast against the other, and any other length
  combination raises a shape-mismatch runtime error.
* `torch.ones n` rejects a negative dimension with a runtime error and
  otherwise builds a length-`n` tensor of ones; `__init__` performs no other
  validation.
-/

/-- Errors raised by the modelled tensor operations. -/
inductive TorchError where
  | shapeMismatch : TorchError
  | negativeDim : TorchError
  deriving DecidableEq, Repr

/-- A tensor row: the last dimension of an activation tensor. -/
abbrev Row := List ℝ

/-- Elementwise binary operation with broadcasting on the (last) dimension:
pointwise when the lengths agree, a length-one operand broadcasts, and all
other combinations raise a shape mismatch. -/
def elementwise (f : ℝ → ℝ → ℝ) (a b : Row) : Except TorchError Row :=
  if a.length = b.length then .ok (List.zipWith f a b)
  else if a.length = 1 then .ok (b.map fun v => f a.headI v)
  else if b.length = 1 then .ok (a.map fun v => f v b.headI)
  else .error .shapeMismatch

/-- `x.pow(2).mean(dim=-1)`: the mean of the squares of a row. -/
noncomputable def meanSq (x : Row) : ℝ :=
  (x.map fun v => v ^ 2).sum / x.length

/-- `torch.rsqrt`: reciprocal of the square root. -/
noncomputable def rsqrt (v : ℝ) : ℝ :=
  (Real.sqrt v)⁻¹

/-- The state of an `RMSNorm` module: the learned weight row and the
`variance_epsilon` field. -/
structure RMSNorm where
  weight : Row
  variance_epsilon : ℝ

/-- `RMSNorm.__init__`: `self.weight = nn.Parameter(torch.ones(hidden_size))`
and `self.variance_epsilon = eps` (default `1e-6`).  The constructor itself
validates nothing; `torch.ones` raises on a negative dimension. -/
noncomputable def RMSNorm.init (hidden_size : Int) (eps : ℝ := 1e-6) :
    Except TorchError RMSNorm :=
  if hidden_size < 0 then .error .negativeDim
  else .ok ⟨List.replicate hidden_size.toNat 1, eps⟩

/-- The effective pre-normalization input of `_forward`: the promoted input
`x`, with `x = x + residual.to(torch.float32)` when a residual is supplied. -/
def RMSNorm.effInput (x : Row) : Option Row → Except TorchError Row
  | none => .ok x
  | some r => elementwise (· + ·) x r

/-- Shallow embedding of `RMSNorm._forward` on one row.

```
orig_dtype = x.dtype
x = x.to(torch.float32)
if residual is not None:
    x = x + residual.to(torch.float32)
    residual = x.to(orig_dtype)
variance = x.pow(2).mean(dim=-1, keepdim=True)
x = x * torch.rsqrt(variance + self.variance_epsilon)
x = x.to(orig_dtype) * self.weight
```

The result is the pair of the output row and (when a residual was supplied)
the updated residual; `dcast` models `.to(orig_dtype)`. -/
noncomputable def RMSNorm.fwdRef (m : RMSNorm) (dcast : ℝ → ℝ) (x : Row)
    (residual : Option Row) : Except TorchError (Row × Option Row) :=
  match RMSNorm.effInput x residual with
  | .error e => .error e
  | .ok xs =>
      let newRes := residual.map fun _ => xs.map dcast
      let variance := meanSq xs
      let x1 := xs.map fun v => v * rsqrt (variance + m.variance_epsilon)
      match elementwise (· * ·) (x1.map dcast) m.weight with
      | .error e => .error e
      | .ok out => .ok (out, newRes)

/-- `true` on a successful result. -/
def exceptOk {α : Type} : Except TorchError α → Bool
  | .ok _ => true
  | .error _ => false

/-- A buffer heap: tensor storage, for the frame analysis of `_forward`.
A tensor value is an index into the heap.  Every tensor operation appearing
in `_forward` (`.to`, `+`, `pow`/`mean`, `*`) is out-of-place, so each step
allocates a fresh buffer and no existing buffer is ever written. -/
structure Heap where
  bufs : List Row

/-- Allocate a fresh buffer; returns the new heap and the fresh id. -/
def Heap.alloc (h : Heap) (r : Row) : Heap × Nat :=
  (⟨h.bufs ++ [r]⟩, h.bufs.length)

/-- Read a buffer (empty row for an invalid id). -/
def Heap.read (h : Heap) (i : Nat) : Row :=
  h.bufs.getD i []

/-- An `RMSNorm` module whose weight parameter lives in the buffer heap. -/
structure RMSNormRef where
  weightId : Nat
  variance_epsilon : ℝ

/-- `RMSNorm._forward` at the buffer level: the same steps as `fwdRef`, with
every intermediate tensor allocated as a fresh buffer, mirroring that the
source uses only out-of-place operations and rebinds the local names `x` and
`residual` rather than writing into the caller's buffers. -/
noncomputable def RMSNormRef.fwdHeap (m : RMSNormRef) (dcast : ℝ → ℝ)
    (h : Heap) (xId : Nat) (residualId : Option Nat) :
    Except TorchError (Heap × Nat × Option Nat) :=
  -- x = x.to(torch.float32)
  let p1 := h.alloc (h.read xId)
  match residualId with
  | none =>
      let xs := p1.1.read p1.2
      let variance := meanSq xs
      -- x = x * torch.rsqrt(variance + self.variance_epsilon)
      let p2 := p1.1.alloc
        (xs.map fun v => v * rsqrt (variance + m.variance_epsilon))
      -- x = x.to(orig_dtype) * self.weight
      match elementwise (· * ·) ((p2.1.read p2.2).map dcast)
          (p2.1.read m.weightId) with
      | .error e => .error e
      | .ok out =>
          let p3 := p2.1.alloc out
          .ok (p3.1, p3.2, none)
  | some rId =>
      -- x = x + residual.to(torch.float32)
      match elementwise (· + ·) (p1.1.read p1.2) (p1.1.read rId) with
      | .error e => .error e
      | .ok s =>
          let p2 := p1.1.alloc s
          -- residual = x.to(orig_dtype)
          let p3 := p2.1.alloc ((p2.1.read p2.2).map dcast)
          let xs := p3.1.read p2.2
          let variance := meanSq xs
          -- x = x * torch.rsqrt(variance + self.variance_epsilon)
          let p4 := p3.1.alloc
            (xs.map fun v => v * rsqrt (variance + m.variance_epsilon))
          -- x = x.to(orig_dtype) * self.weight
          match elementwise (· * ·) ((p4.1.read p4.2).map dcast)
              (p4.1.read m.weightId) with
          | .error e => .error e
          | .ok out =>
              let p5 := p4.1.alloc out
              .ok (p5.1, p5.2, some p3.2)

section Helpers

/-- `getD` of an append stays in the left list below its length. -/
theorem getD_append_left {α : Type} (l l' : List α) (d : α) :
    ∀ i, i < l.length → (l ++ l').getD i d = l.getD i d := by
  induction l with
  | nil => intro i hi; simp at hi
  | cons a t ih =>
      intro i hi
      cases i with
      | zero => rfl
      | succ j =>
          simp only [List.cons_append, List.getD_cons_succ]
          exact ih j (by simpa using hi)

/-- `getD` of a `zipWith` below both lengths. -/
theorem getD_zipWith (f : ℝ → ℝ → ℝ) :
    ∀ (a b : Row) (i : ℕ), i < a.length → i < b.length →
      (List.zipWith f a b).getD i 0 = f (a.getD i 0) (b.getD i 0) := by
  intro a
  induction a with
  | nil => intro b i hi; simp at hi
  | cons x t ih =>
      intro b i hi hj
      cases b with
      | nil => simp at hj
      | cons y u =>
          cases i with
          | zero => rfl
          | succ j =>
              simp only [List.zipWith_cons_cons, List.getD_cons_succ]
              exact ih u j (by simpa using hi) (by simpa using hj)

/-- `getD` of a `map` below the length. -/
theorem getD_map (g : ℝ → ℝ) :
    ∀ (a : Row) (i : ℕ), i < a.length →
      (a.map g).getD i 0 = g (a.getD i 0) := by
  intro a
  induction a with
  | nil => intro i hi; simp at hi
  | cons x t ih =>
      intro i hi
      cases i with
      | zero => rfl
      | succ j =>
          simp only [List.map_cons, List.getD_cons_succ]
          exact ih j (by simpa using hi)

end Helpers

section ForwardLemmas

/-- With matching lengths and no residual, `_forward` succeeds and the output
is the pointwise product of the downcast scaled row with the weight. -/
theorem fwdRef_none_eq (m : RMSNorm) (dcast : ℝ → ℝ) (x : Row)
    (hlen : x.length = m.weight.length) :
    m.fwdRef dcast x none =
      .ok (List.zipWith (· * ·)
        ((x.map fun v => v * rsqrt (meanSq x + m.variance_epsilon)).map dcast)
        m.weight, none) := by
  unfold RMSNorm.fwdRef RMSNorm.effInput elementwise
  simp [hlen]

/-- With a residual of the same length, `_forward` succeeds; the wide-precision
sum drives both the updated residual and the normalization. -/
theorem fwdRef_some_eq (m : RMSNorm) (dcast : ℝ → ℝ) (x r : Row)
    (hr : r.length = x.length) (hlen : x.length = m.weight.length) :
    m.fwdRef dcast x (some r) =
      .ok (List.zipWith (· * ·)
        (((List.zipWith (· + ·) x r).map fun v =>
            v * rsqrt (meanSq (List.zipWith (· + ·) x r) +
              m.variance_epsilon)).map dcast)
        m.weight,
        some ((List.zipWith (· + ·) x r).map dcast)) := by
  unfold RMSNorm.fwdRef RMSNorm.effInput elementwise
  simp [hr, hlen, min_self]

end ForwardLemmas

/-- C1: with no residual and matching shapes, `_forward` succeeds, the output
has the input's length, and every element `i` equals
`weight[i] * dcast (x[i] / sqrt ((Σ x_j^2)/H + eps))`: per-row variance is the
mean of squares, the scale is the reciprocal square root of
`variance + eps`, the row is scaled in wide precision, and the weight
multiplies the downcast value. -/
theorem c1_forward_reference_formula (m : RMSNorm) (dcast : ℝ → ℝ) (x : Row)
    (hlen : x.length = m.weight.length) :
    ∃ out : Row, m.fwdRef dcast x none = .ok (out, none) ∧
      out.length = x.length ∧
      ∀ i, i < x.length →
        out.getD i 0 =
          m.weight.getD i 0 *
            dcast (x.getD i 0 *
              (Real.sqrt ((x.map fun v => v ^ 2).sum / x.length +
                m.variance_epsilon))⁻¹) := by
  refine ⟨_, fwdRef_none_eq m dcast x hlen, ?_, ?_⟩
  · simp [hlen]
  · intro i hi
    rw [getD_zipWith _ _ _ _ (by simpa using hi) (by omega),
      getD_map _ _ _ (by simpa using hi),
      getD_map _ _ _ (by simpa using hi)]
    rw [mul_comm]
    rfl

/-- C1 witness: concrete instance with `H = 2`. -/
theorem c1_forward_reference_formula_witness :
    ∃ out : Row,
      RMSNorm.fwdRef ⟨[(1 : ℝ), 2], 3⟩ id [(5 : ℝ), 6] none =
        .ok (out, none) ∧
      out.length = ([(5 : ℝ), 6] : Row).length ∧
      ∀ i, i < ([(5 : ℝ), 6] : Row).length →
        out.getD i 0 =
          ([(1 : ℝ), 2] : Row).getD i 0 *
            id (([(5 : ℝ), 6] : Row).getD i 0 *
              (Real.sqrt ((([(5 : ℝ), 6] : Row).map fun v => v ^ 2).sum /
                ([(5 : ℝ), 6] : Row).length + 3))⁻¹) :=
  c1_forward_reference_formula ⟨[(1 : ℝ), 2], 3⟩ id [(5 : ℝ), 6] (by simp)

/-- C2: with a residual of the input's shape, `_forward` adds the residual to
the input in wide precision, returns the sum downcast to the storage precision
as the updated residual, and normalizes using the variance of the
wide-precision sum (the downcast never feeds the variance). -/
theorem c2_residual_added_in_wide_precision (m : RMSNorm) (dcast : ℝ → ℝ)
    (x r : Row) (hr : r.length = x.length)
    (hlen : x.length = m.weight.length) :
    ∃ out newRes : Row,
      m.fwdRef dcast x (some r) = .ok (out, some newRes) ∧
      newRes = (List.zipWith (· + ·) x r).map dcast ∧
      newRes.length = x.length ∧
      out.length = x.length ∧
      (∀ i, i < x.length →
        newRes.getD i 0 = dcast (x.getD i 0 + r.getD i 0)) ∧
      ∀ i, i < x.length →
        out.getD i 0 =
          m.weight.getD i 0 *
            dcast ((x.getD i 0 + r.getD i 0) *
              (Real.sqrt
                (((List.zipWith (· + ·) x r).map fun v => v ^ 2).sum /
                  x.length + m.variance_epsilon))⁻¹) := by
  have hxs : (List.zipWith (· + ·) x r).length = x.length := by
    simp [hr]
  refine ⟨_, _, fwdRef_some_eq m dcast x r hr hlen, rfl, ?_, ?_, ?_, ?_⟩
  · simp [hxs]
  · simp [hxs, hlen]
  · intro i hi
    rw [getD_map _ _ _ (by omega), getD_zipWith _ _ _ _ hi (by omega)]
  · intro i hi
    rw [getD_zipWith _ _ _ _ (by simp [hxs]; omega) (by omega),
      getD_map _ _ _ (by simp [hxs]; omega),
      getD_map _ _ _ (by simp [hxs]; omega),
      getD_zipWith _ _ _ _ hi (by omega)]
    rw [mul_comm]
    unfold rsqrt meanSq
    rw [hxs]

/-- C2 witness: concrete instance with `H = 2`. -/
theorem c2_residual_added_in_wide_precision_witness :
    ∃ out newRes : Row,
      RMSNorm.fwdRef ⟨[(1 : ℝ), 1], 2⟩ id [(1 : ℝ), 2] (some [(3 : ℝ), 4]) =
        .ok (out, some newRes) ∧
      newRes = (List.zipWith (· + ·) [(1 : ℝ), 2] [(3 : ℝ), 4]).map id ∧
      newRes.length = ([(1 : ℝ), 2] : Row).length ∧
      out.length = ([(1 : ℝ), 2] : Row).length ∧
      (∀ i, i < ([(1 : ℝ), 2] : Row).length →
        newRes.getD i 0 =
          id (([(1 : ℝ), 2] : Row).getD i 0 +
            ([(3 : ℝ), 4] : Row).getD i 0)) ∧
      ∀ i, i < ([(1 : ℝ), 2] : Row).length →
        out.getD i 0 =
          ([(1 : ℝ), 1] : Row).getD i 0 *
            id ((([(1 : ℝ), 2] : Row).getD i 0 +
                ([(3 : ℝ), 4] : Row).getD i 0) *
              (Real.sqrt
                (((List.zipWith (· + ·) [(1 : ℝ), 2] [(3 : ℝ), 4]).map
                    fun v => v ^ 2).sum /
                  ([(1 : ℝ), 2] : Row).length + 2))⁻¹) :=
  c2_residual_added_in_wide_precision ⟨[(1 : ℝ), 1], 2⟩ id [(1 : ℝ), 2]
    [(3 : ℝ), 4] (by simp) (by simp)

/-- C3 counterexample: with weight length 1 and input length 2 the lengths
disagree, yet `_forward` succeeds by broadcasting the weight instead of
raising a shape mismatch. -/
theorem c3_counterexample_weight_broadcast :
    ([(2 : ℝ), 3] : Row).length ≠ ([(1 : ℝ)] : Row).length ∧
      exceptOk (RMSNorm.fwdRef ⟨[(1 : ℝ)], 1⟩ id [(2 : ℝ), 3] none) = true :=
  ⟨by decide, by rfl⟩

/-- C3 amended: a shape mismatch is raised exactly when the disagreeing
lengths are not broadcast-compatible.  If the input length and the weight
length differ and neither is 1, the weight multiplication raises; if a
supplied residual's length differs from the input's and neither is 1, the
addition raises and aborts the call; but when the weight has length 1 the
call silently broadcasts and succeeds. -/
theorem c3_shape_mismatch_iff_not_broadcastable (m : RMSNorm) (dcast : ℝ → ℝ)
    (x : Row) :
    (x.length ≠ m.weight.length → x.length ≠ 1 → m.weight.length ≠ 1 →
      m.fwdRef dcast x none = .error .shapeMismatch) ∧
    (∀ r : Row, r.length ≠ x.length → r.length ≠ 1 → x.length ≠ 1 →
      m.fwdRef dcast x (some r) = .error .shapeMismatch) ∧
    (m.weight.length = 1 → exceptOk (m.fwdRef dcast x none) = true) := by
  refine ⟨?_, ?_, ?_⟩
  · intro h1 h2 h3
    unfold RMSNorm.fwdRef RMSNorm.effInput elementwise
    simp [h1, h2, h3]
  · intro r h1 h2 h3
    unfold RMSNorm.fwdRef RMSNorm.effInput elementwise
    simp [Ne.symm h1, h2, h3]
  · intro h1
    by_cases hx : x.length = 1
    · unfold RMSNorm.fwdRef RMSNorm.effInput elementwise
      simp [h1, hx, exceptOk]
    · unfold RMSNorm.fwdRef RMSNorm.effInput elementwise
      simp [h1, hx, exceptOk]

/-- C3 witness: concrete mismatches that raise, and a length-1 weight that
broadcasts. -/
theorem c3_shape_mismatch_iff_not_broadcastable_witness :
    RMSNorm.fwdRef ⟨[(1 : ℝ), 1, 1], 1⟩ id [(2 : ℝ), 3] none =
      .error .shapeMismatch ∧
    RMSNorm.fwdRef ⟨[(1 : ℝ), 1, 1], 1⟩ id [(2 : ℝ), 3]
      (some [(1 : ℝ), 2, 3]) = .error .shapeMismatch ∧
    exceptOk (RMSNorm.fwdRef ⟨[(5 : ℝ)], 1⟩ id [(2 : ℝ), 3] none) = true :=
  ⟨(c3_shape_mismatch_iff_not_broadcastable ⟨[(1 : ℝ), 1, 1], 1⟩ id
      [(2 : ℝ), 3]).1 (by decide) (by decide) (by decide),
   (c3_shape_mismatch_iff_not_broadcastable ⟨[(1 : ℝ), 1, 1], 1⟩ id
      [(2 : ℝ), 3]).2.1 [(1 : ℝ), 2, 3] (by decide) (by decide) (by decide),
   (c3_shape_mismatch_iff_not_broadcastable ⟨[(5 : ℝ)], 1⟩ id
      [(2 : ℝ), 3]).2.2 (by decide)⟩

/-- C4 counterexample: constructing with `eps = -1 ≤ 0` succeeds — `__init__`
performs no validation of `eps` at all, so no invalid-parameter error is
raised. -/
theorem c4_counterexample_negative_eps_accepted :
    RMSNorm.init 4 (-1) = .ok ⟨[(1 : ℝ), 1, 1, 1], -1⟩ := by
  rfl

/-- C4 amended: construction validates neither `eps` nor positivity of
`hidden_size`.  It succeeds for every `hidden_size ≥ 0` (including 0) and
every `eps` (including `eps ≤ 0`), storing an all-ones weight and the given
`eps`; it fails only for `hidden_size < 0`, where the tensor library rejects
the negative dimension. -/
theorem c4_construction_no_parameter_validation (hidden_size : Int)
    (eps : ℝ) :
    (0 ≤ hidden_size →
      RMSNorm.init hidden_size eps =
        .ok ⟨List.replicate hidden_size.toNat 1, eps⟩) ∧
    (hidden_size < 0 →
      RMSNorm.init hidden_size eps = .error .negativeDim) := by
  constructor
  · intro h
    unfold RMSNorm.init
    rw [if_neg (by omega)]
  · intro h
    unfold RMSNorm.init
    rw [if_pos h]

/-- C4 witness: `eps = -1` is accepted; `hidden_size = -2` is rejected by the
tensor library. -/
theorem c4_construction_no_parameter_validation_witness :
    RMSNorm.init 4 (-1) =
      .ok ⟨List.replicate (Int.toNat 4) 1, -1⟩ ∧
    RMSNorm.init (-2) 1 = .error .negativeDim :=
  ⟨(c4_construction_no_parameter_validation 4 (-1)).1 (by decide),
   (c4_construction_no_parameter_validation (-2) 1).2 (by decide)⟩

/-- C9: construction with a positive `hidden_size` succeeds, initializes the
weight to an all-ones row of length `hidden_size`, and stores `eps` unchanged
as the epsilon `_forward` uses; the default `eps` is `1e-6`. -/
theorem c9_construction_weight_ones_eps_stored (hidden_size : Int) (eps : ℝ)
    (hpos : 0 < hidden_size) :
    (∃ m : RMSNorm, RMSNorm.init hidden_size eps = .ok m ∧
      m.weight = List.replicate hidden_size.toNat 1 ∧
      m.weight.length = hidden_size.toNat ∧
      (∀ w ∈ m.weight, w = 1) ∧
      m.variance_epsilon = eps) ∧
    ∃ m : RMSNorm, RMSNorm.init hidden_size = .ok m ∧
      m.variance_epsilon = 1e-6 := by
  have hok : RMSNorm.init hidden_size eps =
      .ok ⟨List.replicate hidden_size.toNat 1, eps⟩ := by
    unfold RMSNorm.init
    rw [if_neg (by omega)]
  have hok' : RMSNorm.init hidden_size =
      .ok ⟨List.replicate hidden_size.toNat 1, 1e-6⟩ := by
    unfold RMSNorm.init
    rw [if_neg (by omega)]
  refine ⟨⟨_, hok, rfl, by simp, ?_, rfl⟩, ⟨_, hok', rfl⟩⟩
  intro w hw
  exact (List.eq_of_mem_replicate hw)

/-- C9 witness: `hidden_size = 3`, `eps = 2`. -/
theorem c9_construction_weight_ones_eps_stored_witness :
    (∃ m : RMSNorm, RMSNorm.init 3 2 = .ok m ∧
      m.weight = List.replicate (Int.toNat 3) 1 ∧
      m.weight.length = Int.toNat 3 ∧
      (∀ w ∈ m.weight, w = 1) ∧
      m.variance_epsilon = 2) ∧
    ∃ m : RMSNorm, RMSNorm.init 3 = .ok m ∧
      m.variance_epsilon = 1e-6 :=
  c9_construction_weight_ones_eps_stored 3 2 (by decide)

/-- C5: every output element is `weight[i] * dcast (normalized_i)` — the
downcast to the storage precision happens before the weight multiplication —
and, at a concrete rounding downcast (`⌊·⌋` with input `[3]`, weight `[2]`,
`eps = 7`), the code's order yields `⌊3/4⌋ * 2 = 0` while multiplying by the
weight in wide precision before the downcast would yield `⌊2 * 3/4⌋ = 1`. -/
theorem c5_downcast_before_weight_multiply (m : RMSNorm) (dcast : ℝ → ℝ)
    (x : Row) (hlen : x.length = m.weight.length) :
    (∃ out : Row, m.fwdRef dcast x none = .ok (out, none) ∧
      ∀ i, i < x.length →
        out.getD i 0 =
          m.weight.getD i 0 *
            dcast (x.getD i 0 * rsqrt (meanSq x + m.variance_epsilon))) ∧
    (∃ out : Row,
      RMSNorm.fwdRef ⟨[(2 : ℝ)], 7⟩ (fun v => (⌊v⌋ : ℝ)) [(3 : ℝ)] none =
        .ok (out, none) ∧
      out.getD 0 0 = 0 ∧
      (⌊(2 : ℝ) * ((3 : ℝ) * rsqrt (meanSq [(3 : ℝ)] + 7))⌋ : ℝ) = 1 ∧
      out.getD 0 0 ≠
        (⌊(2 : ℝ) * ((3 : ℝ) * rsqrt (meanSq [(3 : ℝ)] + 7))⌋ : ℝ)) := by
  constructor
  · refine ⟨_, fwdRef_none_eq m dcast x hlen, ?_⟩
    intro i hi
    rw [getD_zipWith _ _ _ _ (by simpa using hi) (by omega),
      getD_map _ _ _ (by simpa using hi),
      getD_map _ _ _ (by simpa using hi)]
    rw [mul_comm]
  · have harg : meanSq [(3 : ℝ)] + 7 = 16 := by
      unfold meanSq
      norm_num
    have hsqrt : Real.sqrt 16 = 4 := by
      rw [show (16 : ℝ) = 4 ^ 2 by norm_num]
      exact Real.sqrt_sq (by norm_num)
    have hscale : rsqrt (meanSq [(3 : ℝ)] + 7) = 4⁻¹ := by
      rw [harg]
      unfold rsqrt
      rw [hsqrt]
    refine ⟨_, fwdRef_none_eq ⟨[(2 : ℝ)], 7⟩ (fun v => (⌊v⌋ : ℝ))
      [(3 : ℝ)] (by simp), ?_, ?_, ?_⟩
    · show (⌊(3 : ℝ) * rsqrt (meanSq [(3 : ℝ)] + 7)⌋ : ℝ) * 2 = 0
      have : (⌊(3 : ℝ) * 4⁻¹⌋ : ℤ) = 0 := by
        rw [Int.floor_eq_iff]
        norm_num
      rw [hscale, this]
      norm_num
    · have : (⌊(2 : ℝ) * ((3 : ℝ) * 4⁻¹)⌋ : ℤ) = 1 := by
        rw [Int.floor_eq_iff]
        norm_num
      rw [hscale, this]
      norm_num
    · have h0 : (⌊(3 : ℝ) * rsqrt (meanSq [(3 : ℝ)] + 7)⌋ : ℝ) * 2 = 0 := by
        have : (⌊(3 : ℝ) * 4⁻¹⌋ : ℤ) = 0 := by
          rw [Int.floor_eq_iff]
          norm_num
        rw [hscale, this]
        norm_num
      have h1 : (⌊(2 : ℝ) * ((3 : ℝ) * rsqrt (meanSq [(3 : ℝ)] + 7))⌋ : ℝ) =
          1 := by
        have : (⌊(2 : ℝ) * ((3 : ℝ) * 4⁻¹)⌋ : ℤ) = 1 := by
          rw [Int.floor_eq_iff]
          norm_num
        rw [hscale, this]
        norm_num
      show (⌊(3 : ℝ) * rsqrt (meanSq [(3 : ℝ)] + 7)⌋ : ℝ) * 2 ≠ _
      rw [h0, h1]
      norm_num

/-- C5 witness: the ordering statement at a concrete instance. -/
theorem c5_downcast_before_weight_multiply_witness :
    (∃ out : Row,
      RMSNorm.fwdRef ⟨[(2 : ℝ)], 7⟩ (fun v => (⌊v⌋ : ℝ)) [(3 : ℝ)] none =
        .ok (out, none) ∧
      ∀ i, i < ([(3 : ℝ)] : Row).length →
        out.getD i 0 =
          ([(2 : ℝ)] : Row).getD i 0 *
            (⌊([(3 : ℝ)] : Row).getD i 0 *
              rsqrt (meanSq [(3 : ℝ)] + 7)⌋ : ℝ)) ∧
    (∃ out : Row,
      RMSNorm.fwdRef ⟨[(2 : ℝ)], 7⟩ (fun v => (⌊v⌋ : ℝ)) [(3 : ℝ)] none =
        .ok (out, none) ∧
      out.getD 0 0 = 0 ∧
      (⌊(2 : ℝ) * ((3 : ℝ) * rsqrt (meanSq [(3 : ℝ)] + 7))⌋ : ℝ) = 1 ∧
      out.getD 0 0 ≠
        (⌊(2 : ℝ) * ((3 : ℝ) * rsqrt (meanSq [(3 : ℝ)] + 7))⌋ : ℝ)) :=
  c5_downcast_before_weight_multiply ⟨[(2 : ℝ)], 7⟩ (fun v => (⌊v⌋ : ℝ))
    [(3 : ℝ)] (by simp)

/-- Pointwise multiplication by an all-zero right operand yields all zeros. -/
theorem zipWith_mul_right_all_zero :
    ∀ (a b : Row), (∀ w ∈ b, w = 0) →
      List.zipWith (· * ·) a b =
        List.replicate (List.zipWith (· * ·) a b).length 0 := by
  intro a
  induction a with
  | nil => intro b h; rfl
  | cons x t ih =>
      intro b h
      cases b with
      | nil => rfl
      | cons y u =>
          have hy : y = 0 := h y (List.mem_cons_self y u)
          have hu : ∀ w ∈ u, w = 0 := fun w hw => h w (List.mem_cons_of_mem y hw)
          simp only [List.zipWith_cons_cons, List.length_cons,
            List.replicate_succ]
          rw [hy, mul_zero]
          exact congrArg (List.cons 0) (ih u hu)

/-- C7: when the weight row is all zeros, `_forward` succeeds and its output
is the all-zero row of the input's length, whatever the input's values. -/
theorem c7_zero_weight_gives_zero_output (m : RMSNorm) (dcast : ℝ → ℝ)
    (x : Row) (hzero : ∀ w ∈ m.weight, w = 0)
    (hlen : x.length = m.weight.length) :
    m.fwdRef dcast x none = .ok (List.replicate x.length 0, none) := by
  rw [fwdRef_none_eq m dcast x hlen]
  rw [zipWith_mul_right_all_zero _ _ hzero]
  have : (List.zipWith (· * ·)
      ((x.map fun v => v * rsqrt (meanSq x + m.variance_epsilon)).map dcast)
      m.weight).length = x.length := by
    simp [hlen]
  rw [this]

/-- C7 witness: zero weight of length 2 against input `[1, 2]`. -/
theorem c7_zero_weight_gives_zero_output_witness :
    RMSNorm.fwdRef ⟨[(0 : ℝ), 0], 5⟩ id [(1 : ℝ), 2] none =
      .ok (List.replicate (List.length [(1 : ℝ), 2]) 0, none) :=
  c7_zero_weight_gives_zero_output ⟨[(0 : ℝ), 0], 5⟩ id [(1 : ℝ), 2]
    (by intro w hw; rcases List.mem_cons.mp hw with h | h
        · exact h
        · simpa using h)
    (by simp)

/-- C6: if the second call's residual input is the first call's returned
updated residual, and the downcast is exact on the first call's sum (the
storage precision represents it exactly, e.g. float32 storage), then the
second call's effective pre-normalization input is
`layer2_input + (layer1_input + original_residual)` elementwise: accumulation
is additive and order-preserving, and the second call behaves as if its
residual were that exact sum. -/
theorem c6_residual_chaining (m1 m2 : RMSNorm) (dcast : ℝ → ℝ)
    (x1 r0 x2 out1 res1 : Row)
    (hr0 : r0.length = x1.length) (hx2 : x2.length = x1.length)
    (hlen1 : x1.length = m1.weight.length)
    (hcall1 : m1.fwdRef dcast x1 (some r0) = .ok (out1, some res1))
    (hexact : ∀ v ∈ List.zipWith (· + ·) x1 r0, dcast v = v) :
    RMSNorm.effInput x2 (some res1) =
      .ok (List.zipWith (· + ·) x2 (List.zipWith (· + ·) x1 r0)) ∧
    m2.fwdRef dcast x2 (some res1) =
      m2.fwdRef dcast x2 (some (List.zipWith (· + ·) x1 r0)) ∧
    ∀ i, i < x2.length →
      (List.zipWith (· + ·) x2 (List.zipWith (· + ·) x1 r0)).getD i 0 =
        x2.getD i 0 + (x1.getD i 0 + r0.getD i 0) := by
  have hres : res1 = List.zipWith (· + ·) x1 r0 := by
    have heq := (fwdRef_some_eq m1 dcast x1 r0 hr0 hlen1).symm.trans hcall1
    have hpair := Except.ok.inj heq
    have hsnd := congrArg Prod.snd hpair
    have hsome := Option.some.inj hsnd
    rw [← hsome]
    rw [List.map_congr_left hexact]
    simp
  have hsum_len : (List.zipWith (· + ·) x1 r0).length = x1.length := by
    simp [hr0]
  refine ⟨?_, by rw [hres], ?_⟩
  · rw [hres]
    show elementwise (· + ·) x2 (List.zipWith (· + ·) x1 r0) = _
    unfold elementwise
    rw [if_pos (by rw [hsum_len]; exact hx2)]
  · intro i hi
    rw [getD_zipWith _ _ _ _ hi (by omega),
      getD_zipWith _ _ _ _ (by omega) (by omega)]

/-- C6 witness: two chained calls with `H = 2`, float32-exact downcast. -/
theorem c6_residual_chaining_witness :
    RMSNorm.effInput [(5 : ℝ), 6]
        (some [(1 : ℝ) + 3, (2 : ℝ) + 4]) =
      .ok (List.zipWith (· + ·) [(5 : ℝ), 6]
        (List.zipWith (· + ·) [(1 : ℝ), 2] [(3 : ℝ), 4])) ∧
    RMSNorm.fwdRef ⟨[(1 : ℝ), 1], 1⟩ id [(5 : ℝ), 6]
        (some [(1 : ℝ) + 3, (2 : ℝ) + 4]) =
      RMSNorm.fwdRef ⟨[(1 : ℝ), 1], 1⟩ id [(5 : ℝ), 6]
        (some (List.zipWith (· + ·) [(1 : ℝ), 2] [(3 : ℝ), 4])) ∧
    ∀ i, i < ([(5 : ℝ), 6] : Row).length →
      (List.zipWith (· + ·) [(5 : ℝ), 6]
        (List.zipWith (· + ·) [(1 : ℝ), 2] [(3 : ℝ), 4])).getD i 0 =
        ([(5 : ℝ), 6] : Row).getD i 0 +
          (([(1 : ℝ), 2] : Row).getD i 0 +
            ([(3 : ℝ), 4] : Row).getD i 0) :=
  c6_residual_chaining ⟨[(1 : ℝ), 1], 1⟩ ⟨[(1 : ℝ), 1], 1⟩ id
    [(1 : ℝ), 2] [(3 : ℝ), 4] [(5 : ℝ), 6]
    [((1 : ℝ) + 3) * rsqrt (meanSq [(1 : ℝ) + 3, (2 : ℝ) + 4] + 1) * 1,
     ((2 : ℝ) + 4) * rsqrt (meanSq [(1 : ℝ) + 3, (2 : ℝ) + 4] + 1) * 1]
    [(1 : ℝ) + 3, (2 : ℝ) + 4]
    (by simp) (by simp) (by simp) rfl (fun v _ => rfl)

/-- Rational bounds on `sqrt (4 + 1e-6)`. -/
theorem sqrt_four_plus_eps_bounds :
    2.000000249 < Real.sqrt ((4 : ℝ) + 1e-6) ∧
    Real.sqrt ((4 : ℝ) + 1e-6) < 2.000000251 := by
  constructor
  · exact (Real.lt_sqrt (by norm_num)).mpr (by norm_num)
  · exact (Real.sqrt_lt' (by norm_num)).mpr (by norm_num)

/-- Rational bounds on the scale `1 / sqrt (4 + 1e-6)`. -/
theorem rsqrt_four_plus_eps_bounds :
    0.499999937 < rsqrt ((4 : ℝ) + 1e-6) ∧
    rsqrt ((4 : ℝ) + 1e-6) < 0.499999938 := by
  obtain ⟨hlo, hhi⟩ := sqrt_four_plus_eps_bounds
  have hpos : (0 : ℝ) < Real.sqrt (4 + 1e-6) := lt_trans (by norm_num) hlo
  unfold rsqrt
  constructor
  · calc (0.499999937 : ℝ) < 2.000000251⁻¹ := by norm_num
      _ < (Real.sqrt ((4 : ℝ) + 1e-6))⁻¹ := inv_strictAnti₀ hpos hhi
  · calc (Real.sqrt ((4 : ℝ) + 1e-6))⁻¹ < 2.000000249⁻¹ :=
        inv_strictAnti₀ (by norm_num) hlo
      _ < 0.499999938 := by norm_num

/-- C8 counterexample: the computed scale `1 / sqrt (4.000001)` exceeds the
claimed value `0.499999875` by more than `6.2e-8` (it is `≈ 0.4999999375`),
so the claimed nine-digit approximation is wrong in its seventh decimal. -/
theorem c8_counterexample_claimed_scale_value :
    0.499999875 + 6.2e-8 < rsqrt ((4 : ℝ) + 1e-6) ∧
    rsqrt ((4 : ℝ) + 1e-6) < 0.499999875 + 6.3e-8 := by
  obtain ⟨hlo, hhi⟩ := rsqrt_four_plus_eps_bounds
  constructor
  · calc (0.499999875 : ℝ) + 6.2e-8 = 0.499999937 := by norm_num
      _ < _ := hlo
  · calc rsqrt ((4 : ℝ) + 1e-6) < 0.499999938 := hhi
      _ = 0.499999875 + 6.3e-8 := by norm_num

/-- C8 amended: with `hidden_size = 4`, input `[2,2,2,2]`, all-ones weight and
`eps = 1e-6`, the variance is exactly 4, every output element is exactly
`2 * (1 / sqrt (4 + 1e-6))`, and the scale `1 / sqrt (4.000001)` is
`0.4999999375` to within `1e-9` (not `0.499999875`); each output element is
thus `≈ 0.999999875`. -/
theorem c8_concrete_instance_corrected :
    meanSq [(2 : ℝ), 2, 2, 2] = 4 ∧
    RMSNorm.fwdRef ⟨[(1 : ℝ), 1, 1, 1], 1e-6⟩ id [(2 : ℝ), 2, 2, 2] none =
      .ok ([2 * rsqrt ((4 : ℝ) + 1e-6), 2 * rsqrt ((4 : ℝ) + 1e-6),
            2 * rsqrt ((4 : ℝ) + 1e-6), 2 * rsqrt ((4 : ℝ) + 1e-6)],
           none) ∧
    |rsqrt ((4 : ℝ) + 1e-6) - 0.4999999375| < 1e-9 := by
  have hm : meanSq [(2 : ℝ), 2, 2, 2] = 4 := by
    unfold meanSq
    norm_num
  refine ⟨hm, ?_, ?_⟩
  · rw [fwdRef_none_eq ⟨[(1 : ℝ), 1, 1, 1], 1e-6⟩ id [(2 : ℝ), 2, 2, 2]
      (by simp)]
    simp [hm]
  · obtain ⟨hlo, hhi⟩ := rsqrt_four_plus_eps_bounds
    rw [abs_sub_lt_iff]
    constructor <;> linarith

/-- `getD` of an append at the left length hits the first appended element. -/
theorem getD_append_length {α : Type} (r d : α) (rest : List α) :
    ∀ l : List α, (l ++ r :: rest).getD l.length d = r := by
  intro l
  induction l with
  | nil => rfl
  | cons a t ih => simpa using ih

/-- `getD` of an append at `length + k` reads position `k` of the suffix. -/
theorem getD_append_pos {α : Type} (d : α) (rest : List α) (k : ℕ) :
    ∀ l : List α, (l ++ rest).getD (l.length + k) d = rest.getD k d := by
  intro l
  induction l with
  | nil => simp
  | cons a t ih =>
      rw [show (a :: t).length + k = (t.length + k) + 1 from by
        simp [Nat.add_right_comm]]
      simpa using ih

/-- Reading the freshly allocated buffer returns the allocated row. -/
theorem Heap.read_alloc_self (h : Heap) (r : Row) :
    (h.alloc r).1.read (h.alloc r).2 = r :=
  getD_append_length r [] [] h.bufs

/-- Allocation preserves every existing buffer. -/
theorem Heap.read_alloc_lt (h : Heap) (r : Row) (i : ℕ)
    (hi : i < h.bufs.length) : (h.alloc r).1.read i = h.read i :=
  getD_append_left h.bufs [r] [] i hi

/-- Allocation grows the heap by one. -/
theorem Heap.length_alloc (h : Heap) (r : Row) :
    (h.alloc r).1.bufs.length = h.bufs.length + 1 := by
  simp [Heap.alloc]

/-- `fwdRef` with no residual, in match normal form. -/
theorem fwdRef_match_none (mm : RMSNorm) (dcast : ℝ → ℝ) (x : Row) :
    mm.fwdRef dcast x none =
      match elementwise (· * ·)
        ((x.map fun v => v * rsqrt (meanSq x + mm.variance_epsilon)).map dcast)
        mm.weight with
      | .error e => .error e
      | .ok out => .ok (out, none) := rfl

/-- `fwdRef` with a residual, in match normal form. -/
theorem fwdRef_match_some (mm : RMSNorm) (dcast : ℝ → ℝ) (x r : Row) :
    mm.fwdRef dcast x (some r) =
      match elementwise (· + ·) x r with
      | .error e => .error e
      | .ok s =>
          match elementwise (· * ·)
            ((s.map fun v => v * rsqrt (meanSq s + mm.variance_epsilon)).map
              dcast) mm.weight with
          | .error e => .error e
          | .ok out => .ok (out, some (s.map dcast)) := rfl

/-- `fwdHeap` with no residual: the heap grows by exactly the three fresh
buffers (promoted input, scaled row, output) and nothing else changes. -/
theorem fwdHeap_none_eq (m : RMSNormRef) (dcast : ℝ → ℝ) (h : Heap)
    (xId : Nat) (hw : m.weightId < h.bufs.length) :
    m.fwdHeap dcast h xId none =
      match elementwise (· * ·)
        (((h.read xId).map fun v =>
          v * rsqrt (meanSq (h.read xId) + m.variance_epsilon)).map dcast)
        (h.read m.weightId) with
      | .error e => .error e
      | .ok out =>
          .ok (⟨h.bufs ++ [h.read xId,
              (h.read xId).map fun v =>
                v * rsqrt (meanSq (h.read xId) + m.variance_epsilon),
              out]⟩,
            h.bufs.length + 2, none) := by
  have hw1 : m.weightId < h.bufs.length + 1 := by omega
  simp only [RMSNormRef.fwdHeap, Heap.read_alloc_self, Heap.read_alloc_lt,
    Heap.length_alloc, hw, hw1]
  cases hwe : elementwise (· * ·)
      (((h.read xId).map fun v =>
        v * rsqrt (meanSq (h.read xId) + m.variance_epsilon)).map dcast)
      (h.read m.weightId) with
  | error e => rfl
  | ok out =>
      simp [Heap.alloc, List.append_assoc]

/-- Reading a buffer one allocation behind the top. -/
theorem Heap.read_alloc_alloc (h : Heap) (r r' : Row) :
    ((h.alloc r).1.alloc r').1.read (h.alloc r).2 = r := by
  rw [Heap.read_alloc_lt _ _ _ (by simp [Heap.alloc])]
  exact Heap.read_alloc_self h r

/-- Reading an appended heap below the original length. -/
theorem Heap.read_mk_append_lt (l rest : List Row) (i : ℕ)
    (hi : i < l.length) : Heap.read ⟨l ++ rest⟩ i = l.getD i [] :=
  getD_append_left l rest [] i hi

/-- Reading an appended heap at `length + k` reads the suffix at `k`. -/
theorem Heap.read_mk_append_pos (l rest : List Row) (k : ℕ) :
    Heap.read ⟨l ++ rest⟩ (l.length + k) = rest.getD k [] :=
  getD_append_pos [] rest k l

/-- `fwdHeap` with a residual: the heap grows by exactly the five fresh
buffers (promoted input, sum, downcast sum, scaled row, output). -/
theorem fwdHeap_some_eq (m : RMSNormRef) (dcast : ℝ → ℝ) (h : Heap)
    (xId rId : Nat) (hw : m.weightId < h.bufs.length)
    (hr : rId < h.bufs.length) :
    m.fwdHeap dcast h xId (some rId) =
      match elementwise (· + ·) (h.read xId) (h.read rId) with
      | .error e => .error e
      | .ok s =>
          match elementwise (· * ·)
            ((s.map fun v => v * rsqrt (meanSq s + m.variance_epsilon)).map
              dcast) (h.read m.weightId) with
          | .error e => .error e
          | .ok out =>
              .ok (⟨h.bufs ++ [h.read xId, s, s.map dcast,
                  s.map fun v => v * rsqrt (meanSq s + m.variance_epsilon),
                  out]⟩,
                h.bufs.length + 4, some (h.bufs.length + 2)) := by
  have hw1 : m.weightId < h.bufs.length + 1 := by omega
  have hw2 : m.weightId < h.bufs.length + 2 := by omega
  have hw3 : m.weightId < h.bufs.length + 3 := by omega
  simp only [RMSNormRef.fwdHeap, Heap.read_alloc_self, Heap.read_alloc_alloc,
    Heap.read_alloc_lt, Heap.length_alloc, hw, hw1, hw2, hw3, hr]
  cases hadd : elementwise (· + ·) (h.read xId) (h.read rId) with
  | error e => rfl
  | ok s =>
      dsimp only
      cases hwe : elementwise (· * ·)
          ((s.map fun v => v * rsqrt (meanSq s + m.variance_epsilon)).map
            dcast) (h.read m.weightId) with
      | error e => rfl
      | ok out => simp [Heap.alloc, List.append_assoc]

/-- C10: `_forward` is value-semantic at the buffer level.  On success it
leaves every pre-existing buffer — the caller's input, the caller's residual
and the module's weight — unchanged, returns the output and (when a residual
was supplied) the updated residual in freshly allocated buffers, and the
values agree with the pure reference function `fwdRef` applied to the initial
buffer contents (the module's epsilon is immutable by construction). -/
theorem c10_forward_value_semantics (m : RMSNormRef) (dcast : ℝ → ℝ)
    (h : Heap) (xId : Nat) (residualId : Option Nat) (h' : Heap)
    (outId : Nat) (resOut : Option Nat)
    (hw : m.weightId < h.bufs.length) (hx : xId < h.bufs.length)
    (hres : ∀ r ∈ residualId, r < h.bufs.length)
    (hcall : m.fwdHeap dcast h xId residualId = .ok (h', outId, resOut)) :
    (∀ i, i < h.bufs.length → h'.read i = h.read i) ∧
    h.bufs.length ≤ outId ∧
    (∀ ρ ∈ resOut, h.bufs.length ≤ ρ) ∧
    RMSNorm.fwdRef ⟨h.read m.weightId, m.variance_epsilon⟩ dcast
      (h.read xId) (residualId.map h.read) =
      .ok (h'.read outId, resOut.map h'.read) := by
  cases residualId with
  | none =>
      rw [fwdHeap_none_eq m dcast h xId hw] at hcall
      cases hwe : elementwise (· * ·)
          (((h.read xId).map fun v =>
            v * rsqrt (meanSq (h.read xId) + m.variance_epsilon)).map dcast)
          (h.read m.weightId) with
      | error e => rw [hwe] at hcall; exact absurd hcall (by simp)
      | ok out =>
          rw [hwe] at hcall
          simp only [Except.ok.injEq, Prod.mk.injEq] at hcall
          obtain ⟨hH, hO, hR⟩ := hcall
          subst hH
          subst hO
          subst hR
          refine ⟨?_, by omega, by simp, ?_⟩
          · intro i hi
            rw [Heap.read_mk_append_lt _ _ _ hi]
            rfl
          · simp only [Option.map_none']
            rw [fwdRef_match_none]
            dsimp only
            rw [hwe, Heap.read_mk_append_pos]
            rfl
  | some rId =>
      have hrlt : rId < h.bufs.length := hres rId rfl
      rw [fwdHeap_some_eq m dcast h xId rId hw hrlt] at hcall
      cases hadd : elementwise (· + ·) (h.read xId) (h.read rId) with
      | error e => rw [hadd] at hcall; exact absurd hcall (by simp)
      | ok s =>
          rw [hadd] at hcall
          dsimp only at hcall
          cases hwe : elementwise (· * ·)
              ((s.map fun v =>
                v * rsqrt (meanSq s + m.variance_epsilon)).map dcast)
              (h.read m.weightId) with
          | error e => rw [hwe] at hcall; exact absurd hcall (by simp)
          | ok out =>
              rw [hwe] at hcall
              simp only [Except.ok.injEq, Prod.mk.injEq] at hcall
              obtain ⟨hH, hO, hR⟩ := hcall
              subst hH
              subst hO
              subst hR
              refine ⟨?_, by omega, ?_, ?_⟩
              · intro i hi
                rw [Heap.read_mk_append_lt _ _ _ hi]
                rfl
              · intro ρ hρ
                simp only [Option.mem_def, Option.some.injEq] at hρ
                omega
              · simp only [Option.map_some']
                rw [fwdRef_match_some]
                dsimp only
                rw [hadd]
                dsimp only
                rw [hwe, Heap.read_mk_append_pos, Heap.read_mk_append_pos]
                rfl

/-- C10 witness: a two-buffer heap (weight `[1,1]` at id 0, input `[2,3]` at
id 1), no residual; the call leaves both buffers unchanged and writes its
output to the fresh id 4. -/
theorem c10_forward_value_semantics_witness :
    (∀ i, i < 2 →
      Heap.read ⟨[[(1 : ℝ), 1], [(2 : ℝ), 3], [(2 : ℝ), 3],
        [2 * rsqrt (meanSq [(2 : ℝ), 3] + 1),
         3 * rsqrt (meanSq [(2 : ℝ), 3] + 1)],
        [2 * rsqrt (meanSq [(2 : ℝ), 3] + 1) * 1,
         3 * rsqrt (meanSq [(2 : ℝ), 3] + 1) * 1]]⟩ i =
      Heap.read ⟨[[(1 : ℝ), 1], [(2 : ℝ), 3]]⟩ i) ∧
    2 ≤ 4 ∧
    (∀ ρ ∈ (none : Option Nat), 2 ≤ ρ) ∧
    RMSNorm.fwdRef
      ⟨Heap.read ⟨[[(1 : ℝ), 1], [(2 : ℝ), 3]]⟩ 0, 1⟩ id
      (Heap.read ⟨[[(1 : ℝ), 1], [(2 : ℝ), 3]]⟩ 1)
      ((none : Option Nat).map (Heap.read ⟨[[(1 : ℝ), 1], [(2 : ℝ), 3]]⟩)) =
      .ok (Heap.read ⟨[[(1 : ℝ), 1], [(2 : ℝ), 3], [(2 : ℝ), 3],
        [2 * rsqrt (meanSq [(2 : ℝ), 3] + 1),
         3 * rsqrt (meanSq [(2 : ℝ), 3] + 1)],
        [2 * rsqrt (meanSq [(2 : ℝ), 3] + 1) * 1,
         3 * rsqrt (meanSq [(2 : ℝ), 3] + 1) * 1]]⟩ 4,
        (none : Option Nat).map
          (Heap.read ⟨[[(1 : ℝ), 1], [(2 : ℝ), 3], [(2 : ℝ), 3],
            [2 * rsqrt (meanSq [(2 : ℝ), 3] + 1),
             3 * rsqrt (meanSq [(2 : ℝ), 3] + 1)],
            [2 * rsqrt (meanSq [(2 : ℝ), 3] + 1) * 1,
             3 * rsqrt (meanSq [(2 : ℝ), 3] + 1) * 1]]⟩)) :=
  c10_forward_value_semantics ⟨0, 1⟩ id ⟨[[(1 : ℝ), 1], [(2 : ℝ), 3]]⟩ 1
    none
    ⟨[[(1 : ℝ), 1], [(2 : ℝ), 3], [(2 : ℝ), 3],
      [2 * rsqrt (meanSq [(2 : ℝ), 3] + 1),
       3 * rsqrt (meanSq [(2 : ℝ), 3] + 1)],
      [2 * rsqrt (meanSq [(2 : ℝ), 3] + 1) * 1,
       3 * rsqrt (meanSq [(2 : ℝ), 3] + 1) * 1]]⟩ 4 none
    (by decide) (by decide) (by simp) rfl
